import Mathlib

/-!
Verification of the YC company pipeline (scripts/scrape_yc_to_json.py and
scripts/build_yc_index.py) against its natural-language specification.

The Python code is shallowly embedded: Python values flowing through the
pipeline are modelled by the inductive type `PyValue`; dictionaries with
string keys (JSON objects, company records) by association lists
`List (String × PyValue)`; fallible code (uncaught Python exceptions such as
`AttributeError`, or an explicit `raise ValueError`) by `Except String`.
Machine floats only appear in `parse_batch_index` (`2000 + yy + 0.25`) and in
the sort key (`float(batch_idx)`); in the range reachable by the pipeline
(year values far below 2^49) all these quarter values are exactly
representable, so they are embedded as exact `Int`/`ℚ` arithmetic.
-/

/-- Model of a Python value as it appears in this pipeline: `None`, booleans,
integers, strings, lists and dicts.  Python `str` keys of company records are
kept separate (`PyDict` below); `dict` here keeps arbitrary keys because the
field coercer inspects keys of upstream mappings, which may include `None`. -/
inductive PyValue where
  | none
  | bool (b : Bool)
  | int (n : Int)
  | str (s : String)
  | list (xs : List PyValue)
  | dict (kvs : List (PyValue × PyValue))

/-- A Python dict with string keys (a parsed JSON object / company record),
as an association list in insertion order. -/
abbrev PyDict := List (String × PyValue)

/-- The single-quote character, used by Python `repr` of strings and by the
duplicate-report formatting in `build_index`. -/
def pyQuote : String := String.singleton (Char.ofNat 39)

mutual

/-- Python `repr`.  Strings are shown in single quotes (CPython may switch the
quote character or escape when the string itself holds quotes; that escaping is
not modelled), containers recurse into their elements. -/
def pyRepr : PyValue → String
  | .none => "None"
  | .bool true => "True"
  | .bool false => "False"
  | .int n => toString n
  | .str s => pyQuote ++ s ++ pyQuote
  | .list xs => "[" ++ pyReprList xs ++ "]"
  | .dict kvs => "\x7b" ++ pyReprKVs kvs ++ "\x7d"

/-- Comma-separated `repr` of list elements. -/
def pyReprList : List PyValue → String
  | [] => ""
  | [v] => pyRepr v
  | v :: rest => pyRepr v ++ ", " ++ pyReprList rest

/-- Comma-separated `repr` of dict entries. -/
def pyReprKVs : List (PyValue × PyValue) → String
  | [] => ""
  | [(k, v)] => pyRepr k ++ ": " ++ pyRepr v
  | (k, v) :: rest => pyRepr k ++ ": " ++ pyRepr v ++ ", " ++ pyReprKVs rest

end

/-- Python `str()`: identity on strings, `repr` otherwise. -/
def pyStr : PyValue → String
  | .str s => s
  | v => pyRepr v

/-- Python truthiness (`bool(v)`): `None`, `False`, `0`, `""`, `[]` and
empty dicts are falsy, everything else truthy. -/
def pyTruthy : PyValue → Bool
  | .none => false
  | .bool b => b
  | .int n => decide (n ≠ 0)
  | .str s => decide (s ≠ "")
  | .list xs => !xs.isEmpty
  | .dict kvs => !kvs.isEmpty

/-- Discriminator for `None` (Python `is None` / `is not None` tests). -/
def PyValue.isNone : PyValue → Bool
  | .none => true
  | _ => false

/-- Python `v == ""`: true exactly for the empty string (equality between
values of different types is `False` in Python). -/
def PyValue.isEmptyStr : PyValue → Bool
  | .str s => s == ""
  | _ => false

/-- Python `d.get(k)`: the stored value, or `None` when the key is absent. -/
def pyGet (c : PyDict) (k : String) : PyValue :=
  match c.lookup k with
  | some v => v
  | Option.none => PyValue.none

/-- Python `d.get(k, default)`. -/
def pyGetD (c : PyDict) (k : String) (d : PyValue) : PyValue :=
  match c.lookup k with
  | some v => v
  | Option.none => d

/-- The set of characters Python `str.strip()` removes (ASCII whitespace;
the rarer Unicode whitespace code points are not modelled). -/
def pyWs (c : Char) : Bool :=
  c = ' ' || c = '\t' || c = '\n' || c = '\r' || c = '\x0b' || c = '\x0c'

/-- Python `str.strip()` on a character list: drop leading and trailing
whitespace. -/
def pyStripL (l : List Char) : List Char :=
  (((l.dropWhile pyWs).reverse).dropWhile pyWs).reverse

/-- Python `str.strip()`. -/
def stripStr (s : String) : String :=
  (pyStripL s.toList).asString

/-- Python `str.lower()` (ASCII case mapping, which covers every string the
pipeline compares case-insensitively). -/
def pyLowerS (s : String) : String :=
  (s.toList.map Char.toLower).asString

/-- Python `str.upper()` (ASCII case mapping). -/
def pyUpperS (s : String) : String :=
  (s.toList.map Char.toUpper).asString

/-- Tail of a CPython int-literal digit group: ASCII digits with single
underscores strictly between digits (PEP 515 grouping, as accepted by
`int("2_4")`). -/
def intDigitsTail : List Char → Bool
  | [] => true
  | '_' :: rest =>
    match rest with
    | c :: rest2 => c.isDigit && intDigitsTail rest2
    | [] => false
  | c :: rest => c.isDigit && intDigitsTail rest

/-- A full digit group of a CPython int literal: non-empty, starting with a
digit, with underscores only between digits. -/
def intDigitsOk : List Char → Bool
  | [] => false
  | c :: rest => c.isDigit && intDigitsTail rest

/-- Python `int(str)` on a character list: optional surrounding whitespace,
an optional sign, then a digit group with optional underscore grouping
(`int("2_4") == 24`, while `int("_24")`, `int("24_")` and `int("2__4")`
raise).  The model covers ASCII strings exactly; Unicode digits and Unicode
whitespace, which `int()` also accepts, are outside the model, and the
batch-encoder theorem is restricted to ASCII labels accordingly.  Returns
`Option.none` where CPython raises `ValueError`. -/
def pyIntParseL (chars : List Char) : Option Int :=
  let l := pyStripL chars
  let core : List Char → Option Nat := fun ds =>
    if intDigitsOk ds then
      some ((ds.filter (fun c => c != '_')).foldl (fun a c => 10 * a + (c.toNat - 48)) 0)
    else Option.none
  match l with
  | '-' :: rest => (core rest).map (fun n => -(n : Int))
  | '+' :: rest => (core rest).map (fun n => (n : Int))
  | _ => (core l).map (fun n => (n : Int))

/-- CPython `str(float)` for the values produced by `parse_batch_index`:
the value is `n + q/100` with `q ∈ {25, 75}`.  For `|n| ≤ 2^48` the 64-bit
float is exact and its shortest round-trip rendering is the plain `<n>.<q>`
decimal produced here.  For larger magnitudes CPython rounds the quarter
away or switches to exponent notation; such year suffixes (15+ digits) are
outside the model, and the batch-encoder theorem bounds its success clauses
accordingly. -/
def formatQuarter (n : Int) (q : Nat) : String :=
  let v : Int := 100 * n + (q : Int)
  if v ≥ 0 then toString (v / 100) ++ "." ++ toString (v % 100)
  else "-" ++ toString ((-v) / 100) ++ "." ++ toString ((-v) % 100)

/-- One pass of Python `s.replace("  ", " ")`: scan left to right, replacing
non-overlapping double spaces, continuing after each replacement. -/
def replaceDouble : List Char → List Char
  | ' ' :: ' ' :: rest => ' ' :: replaceDouble rest
  | c :: rest => c :: replaceDouble rest
  | [] => []

/-- Python `"  " in s`: some two adjacent spaces occur. -/
def hasDouble : List Char → Bool
  | ' ' :: ' ' :: _ => true
  | _ :: rest => hasDouble rest
  | [] => false

/-- The `while "  " in s: s = s.replace("  ", " ")` loop of `sanitize_text`,
with an iteration budget.  Each iteration strictly shortens the string
(`replaceDouble_length_lt`), so a budget of the string length is never
exhausted before the loop condition fails (`hasDouble_collapseFuel`). -/
def collapseFuel : Nat → List Char → List Char
  | 0, s => s
  | n + 1, s => if hasDouble s then collapseFuel n (replaceDouble s) else s

/-- The collapse loop, run to completion. -/
def collapseSpaces (s : List Char) : List Char :=
  collapseFuel s.length s

/-- The newline / carriage-return / tab to space substitution of
`sanitize_text`; the three chained single-character `str.replace` calls act
independently on each character. -/
def replNl (c : Char) : Char :=
  if c = '\n' || c = '\r' || c = '\t' then ' ' else c

/-- `sanitize_text` from scrape_yc_to_json.py: empty in, empty out; otherwise
replace newlines, carriage returns and tabs by spaces, collapse runs of two or
more spaces, and strip. -/
def sanitize_text (s : String) : String :=
  if s = "" then ""
  else (pyStripL (collapseSpaces (s.toList.map replNl))).asString

/-- `sanitize_text(value)` as called by `process_company`, where the argument
may be any Python value: falsy values return `""` via the `if not s` guard,
truthy strings are sanitized, and any truthy non-string crashes at
`s.replace` with an `AttributeError`. -/
def pySanitize (v : PyValue) : Except String String :=
  if pyTruthy v then
    match v with
    | .str s => Except.ok (sanitize_text s)
    | _ => Except.error "AttributeError: value has no attribute replace"
  else Except.ok ""

/-- The trailing `S`-branch of `parse_batch_index` (reached both when the
label does not start with `W` and when the `W`-suffix fails to parse):
`startswith("S")` is a first-character test, the length bound is the
`len(batch) >= 3` check, and the suffix is the label without its head. -/
def sBranch (l : List Char) : String :=
  if l.head? = some 'S' ∧ 3 ≤ l.length then
    match pyIntParseL (l.drop 1) with
    | some yy => formatQuarter (2000 + yy) 75
    | Option.none => ""
  else ""

/-- `parse_batch_index` from scrape_yc_to_json.py: strip and uppercase the
label; `W`-labels of length at least 3 whose suffix parses with `int()` map
to `str(2000 + yy + 0.25)`, `S`-labels likewise to `str(2000 + yy + 0.75)`,
everything else to `""`. -/
def parse_batch_index (batch : String) : String :=
  if batch = "" then ""
  else if ((pyStripL batch.toList).map Char.toUpper).head? = some 'W' ∧
      3 ≤ ((pyStripL batch.toList).map Char.toUpper).length then
    match pyIntParseL (((pyStripL batch.toList).map Char.toUpper).drop 1) with
    | some yy => formatQuarter (2000 + yy) 25
    | Option.none => sBranch ((pyStripL batch.toList).map Char.toUpper)
  else sBranch ((pyStripL batch.toList).map Char.toUpper)

/-- `to_array` from scrape_yc_to_json.py: `None` and scalars to `[]`, lists to
their stringified non-`None` elements, dicts to their stringified non-`None`
keys. -/
def to_array : PyValue → List String
  | .none => []
  | .list xs => (xs.filter (fun v => !v.isNone)).map pyStr
  | .dict kvs => ((kvs.map Prod.fst).filter (fun k => !k.isNone)).map pyStr
  | _ => []

/-- The fixed key order of the dict returned by `process_company`. -/
def schemaKeys : List String :=
  ["id", "slug", "name", "smallLogoUrl", "oneLiner", "batch", "batchIndex",
   "status", "primaryIndustry", "industries", "badges", "regions"]

/-- `process_company` from scrape_yc_to_json.py.  The only failure paths are
the two `sanitize_text` calls (`AttributeError` on a truthy non-string `name`
or `oneLiner`); everything else is total. -/
def process_company (company : PyDict) : Except String PyDict := do
  let company_id := pyGet company "id"
  let slug := pyStr (pyGetD company "slug" (.str ""))
  let name ← pySanitize (pyGetD company "name" (.str ""))
  let small_logo_url := pyStr (pyGetD company "smallLogoUrl" (.str ""))
  let one_liner ← pySanitize (pyGetD company "oneLiner" (.str ""))
  let batch := pyStr (pyGetD company "batch" (.str ""))
  let batch_index := parse_batch_index batch
  let status := pyStr (pyGetD company "status" (.str ""))
  let industries := pyGetD company "industries" (.list [])
  let primary_industry :=
    match industries with
    | .list (v :: _) => if v.isNone then "" else pyStr v
    | _ => ""
  let industries_array := to_array industries
  let badges_array := to_array (pyGetD company "badges" (.list []))
  let regions_array := to_array (pyGetD company "regions" (.list []))
  return [("id", company_id),
          ("slug", .str slug),
          ("name", .str name),
          ("smallLogoUrl", .str small_logo_url),
          ("oneLiner", .str one_liner),
          ("batch", .str batch),
          ("batchIndex", .str (if batch_index ≠ "" then batch_index else "")),
          ("status", .str status),
          ("primaryIndustry", .str primary_industry),
          ("industries", .list (industries_array.map PyValue.str)),
          ("badges", .list (badges_array.map PyValue.str)),
          ("regions", .list (regions_array.map PyValue.str))]

/-- The `primary_industry` branch of `process_company`: the `str()` of the
first element of a non-empty raw `industries` list whose first element is not
`None`; empty string in every other case (including mapping-shaped input). -/
def primaryOf (v : PyValue) : String :=
  match v with
  | .list (w :: _) => if w.isNone then "" else pyStr w
  | _ => ""

/-- The record literal returned by `process_company`, parametrised by the two
sanitized text fields (the only fallible computations). -/
def procRecord (c : PyDict) (nm ol : String) : PyDict :=
  [("id", pyGet c "id"),
   ("slug", .str (pyStr (pyGetD c "slug" (.str "")))),
   ("name", .str nm),
   ("smallLogoUrl", .str (pyStr (pyGetD c "smallLogoUrl" (.str "")))),
   ("oneLiner", .str ol),
   ("batch", .str (pyStr (pyGetD c "batch" (.str "")))),
   ("batchIndex", .str
     (if parse_batch_index (pyStr (pyGetD c "batch" (.str ""))) ≠ "" then
        parse_batch_index (pyStr (pyGetD c "batch" (.str ""))) else "")),
   ("status", .str (pyStr (pyGetD c "status" (.str "")))),
   ("primaryIndustry", .str (primaryOf (pyGetD c "industries" (.list [])))),
   ("industries", .list ((to_array (pyGetD c "industries" (.list []))).map PyValue.str)),
   ("badges", .list ((to_array (pyGetD c "badges" (.list []))).map PyValue.str)),
   ("regions", .list ((to_array (pyGetD c "regions" (.list []))).map PyValue.str))]

/-- A canonical company record, the shape produced by `process_company` and
consumed by the dataset sorter: every schema field present, `id` a passthrough
Python value, all other fields strings or string sequences. -/
structure CanonRow where
  id : PyValue
  slug : String
  name : String
  smallLogoUrl : String
  oneLiner : String
  batch : String
  batchIndex : String
  status : String
  primaryIndustry : String
  industries : List String
  badges : List String
  regions : List String

/-- Python `float(str)` for the plain decimal strings the sorter can meet in
`batchIndex` (optional whitespace, optional sign, digits with an optional
fractional part), as an exact rational.  `inf`/`nan`/exponent spellings,
which no `batchIndex` can hold, are not modelled.  `Option.none` marks a
`ValueError`. -/
def parseDecimal (s : String) : Option ℚ :=
  let l := pyStripL s.toList
  let signed : Bool × List Char :=
    match l with
    | '-' :: r => (true, r)
    | '+' :: r => (false, r)
    | _ => (false, l)
  let ip := signed.2.takeWhile Char.isDigit
  let rest := signed.2.dropWhile Char.isDigit
  let fracPart : Option (List Char) :=
    match rest with
    | [] => some []
    | '.' :: f => if f.all Char.isDigit then some f else Option.none
    | _ => Option.none
  match fracPart with
  | Option.none => Option.none
  | some f =>
    if ip.isEmpty && f.isEmpty then Option.none
    else
      let natOf : List Char → Nat := fun ds =>
        ds.foldl (fun a c => 10 * a + (c.toNat - 48)) 0
      let mag : ℚ := (natOf ip : ℚ) + (natOf f : ℚ) / ((10 : ℚ) ^ f.length)
      some (if signed.1 then -mag else mag)

/-- The second component of `sort_key`: `-batch_val`, where `batch_val` is
`float(batch_idx)` for a non-empty parseable `batchIndex` and `float("-inf")`
for an empty or unparseable one.  Negating, the empty/unparseable case becomes
`+inf`, embedded as `⊤` of `WithTop ℚ`. -/
def negBatchVal (s : String) : WithTop ℚ :=
  if s = "" then ⊤
  else
    match parseDecimal s with
    | some q => ((-q : ℚ) : WithTop ℚ)
    | Option.none => ⊤

/-- The lexicographic type of `sort_key` tuples
`(is_blank, -batch_val, name.lower())`. -/
abbrev SortKey := Bool ×ₗ (WithTop ℚ) ×ₗ String

/-- `sort_key` from scrape_yc_to_json.py, as a lexicographically ordered
triple.  Python compares the key tuples lexicographically with `False < True`,
numeric order on `-batch_val` and code-point order on the lowered name, which
is exactly the `≤` of `SortKey`. -/
def sort_key (r : CanonRow) : SortKey :=
  toLex (decide (r.batchIndex = ""), toLex (negBatchVal r.batchIndex, pyLowerS r.name))

/-- The comparator `list.sort(key=sort_key)` effectively sorts by. -/
def rowLE (a b : CanonRow) : Bool :=
  decide (sort_key a ≤ sort_key b)

/-- The dataset sort `processed.sort(key=sort_key)`: Python's sort is a
stable sort by the key, embedded as a stable merge sort under `rowLE`. -/
def sortCompanies (rs : List CanonRow) : List CanonRow :=
  rs.mergeSort rowLE

/-- The numeric value of a parseable `batchIndex` (0 as an unused fallback). -/
def numVal (r : CanonRow) : ℚ :=
  (parseDecimal r.batchIndex).getD 0

/-- First-match association-list lookup (Python dict read; keys are unique in
every dict the pipeline builds). -/
def aLookup {β : Type} : List (String × β) → String → Option β
  | [], _ => Option.none
  | (k, v) :: rest, key => if k = key then some v else aLookup rest key

/-- Python `d[k] = v` on an insertion-ordered dict: overwrite in place when
the key exists, append otherwise. -/
def dictSet (d : List (String × Nat)) (k : String) (v : Nat) : List (String × Nat) :=
  match d with
  | [] => [(k, v)]
  | (k0, v0) :: rest =>
    if k0 = k then (k0, v) :: rest else (k0, v0) :: dictSet rest k v

/-- `defaultdict(list)` append `d[k].append(i)`: extend the entry in place
when the key exists, append a fresh singleton entry otherwise. -/
def occAdd (d : List (String × List Nat)) (k : String) (i : Nat) :
    List (String × List Nat) :=
  match d with
  | [] => [(k, [i])]
  | (k0, l0) :: rest =>
    if k0 = k then (k0, l0 ++ [i]) :: rest else (k0, l0) :: occAdd rest k i

/-- The slug filtering of `build_index`: `company.get("slug")` must not be
`None` or `""`; its `str()` is stripped; the result must be non-empty and its
lowering must avoid the `none`/`null` denylist.  Returns the `bySlug` key this
record writes, if any. -/
def slugKey (company : PyDict) : Option String :=
  let slug := pyGet company "slug"
  if slug.isNone || slug.isEmptyStr then
    Option.none
  else
    let slugStr := stripStr (pyStr slug)
    if slugStr ≠ "" ∧ pyLowerS slugStr ≠ "none" ∧ pyLowerS slugStr ≠ "null" then
      some slugStr
    else Option.none

/-- The id handling of `build_index`: `company.get("id")` must not be `None`;
the `byId` key is its `str()`. -/
def idKey (company : PyDict) : Option String :=
  let cid := pyGet company "id"
  if cid.isNone then Option.none else some (pyStr cid)

/-- One tracking structure of `build_index` for one key kind: the
last-write-wins mapping and the `defaultdict(list)` of writing positions. -/
structure KeyTrack where
  map : List (String × Nat)
  occ : List (String × List Nat)

/-- The loop of `build_index`, restricted to one key kind `f` (the slug and id
updates in the loop body touch disjoint state, so the single source loop is
the product of two such passes): starting at position `i`, each record's key,
when present, is written to the mapping and appended to its occurrence list. -/
def keyPass (f : PyDict → Option String) : Nat → KeyTrack → List PyDict → KeyTrack
  | _, st, [] => st
  | i, st, c :: cs =>
    match f c with
    | some k => keyPass f (i + 1) ⟨dictSet st.map k i, occAdd st.occ k i⟩ cs
    | Option.none => keyPass f (i + 1) st cs

/-- The duplicate entries of a tracking structure: keys written by more than
one position, with all their positions, in first-write order. -/
def dupEntries (occ : List (String × List Nat)) : List (String × List Nat) :=
  occ.filter (fun p => decide (1 < p.2.length))

/-- Python `repr` of a list of ints, as used by the duplicate report
(`f"  '{slug}' at indices: {indices}"`). -/
def reprIdxList (l : List Nat) : String :=
  "[" ++ String.intercalate ", " (l.map (fun n => toString n)) ++ "]"

/-- The per-key lines of a duplicate report. -/
def dupLines (entries : List (String × List Nat)) : String :=
  String.join (entries.map (fun p =>
    "  " ++ pyQuote ++ p.1 ++ pyQuote ++ " at indices: " ++ reprIdxList p.2 ++ "\n"))

/-- A full duplicate report: header, lines, and the final `.strip()` applied
to the message before `raise ValueError`. -/
def dupReport (header : String) (entries : List (String × List Nat)) : String :=
  stripStr (header ++ "\n" ++ dupLines entries)

/-- `build_index` from build_yc_index.py: one pass recording slug and id
writes, then a duplicate check on slugs (raising a report naming every
duplicated slug and all its positions), then the same check on ids, then the
`bySlug`/`byId` pair. -/
def build_index (companies : List PyDict) :
    Except String (List (String × Nat) × List (String × Nat)) :=
  let slugTrack := keyPass slugKey 0 ⟨[], []⟩ companies
  let idTrack := keyPass idKey 0 ⟨[], []⟩ companies
  let duplicate_slugs := dupEntries slugTrack.occ
  if duplicate_slugs.isEmpty then
    let duplicate_ids := dupEntries idTrack.occ
    if duplicate_ids.isEmpty then
      Except.ok (slugTrack.map, idTrack.map)
    else Except.error (dupReport "Duplicate ids found:" duplicate_ids)
  else Except.error (dupReport "Duplicate slugs found:" duplicate_slugs)

/-- The input-classification boundary of the index command: the dataset file
is missing, is not valid JSON, or parses to a top-level JSON object.
(A top-level non-object dataset, which no run of the scraper produces, is
outside the model.) -/
inductive IndexInput where
  | missingFile
  | invalidJson
  | parsed (data : PyDict)

/-- Outcome of one run of the index command: the process exit code, and the
index content written to the output file, if any. -/
structure MainResult where
  exitCode : Nat
  written : Option (List (String × Nat) × List (String × Nat))

/-- A company element of the dataset's `companies` list, viewed as a record:
a JSON-parsed company is exactly a dict whose keys are strings. -/
def asRecord : PyValue → Option PyDict
  | .dict kvs =>
    kvs.foldr
      (fun kv acc =>
        match acc, kv.1 with
        | some d, .str s => some ((s, kv.2) :: d)
        | _, _ => Option.none)
      (some [])
  | _ => Option.none

/-- All elements of a `companies` list viewed as records, when each one is a
record. -/
def asRecords : List PyValue → Option (List PyDict)
  | [] => some []
  | v :: vs =>
    match asRecord v, asRecords vs with
    | some r, some rs => some (r :: rs)
    | _, _ => Option.none

/-- `main` from build_yc_index.py over the abstracted file boundary: missing
input or invalid JSON exit 1 before anything else; `load_companies` raises
(exit 1) when the `companies` key is absent.  The loop of `build_index`
iterates whatever the `companies` value is: a sequence of records indexes
normally; an empty string or empty mapping yields zero iterations, so an
empty index is written and the exit code is 0; a non-empty string or mapping
crashes at `company.get` on its first element (characters, resp. hashable
keys, are never dicts), and an int/bool/null value crashes already at
`len(companies)` — an uncaught exception, CPython exit status 1, before any
write.  A sequence containing a non-record element likewise crashes inside
the loop, before the write. -/
def mainRun (inp : IndexInput) : MainResult :=
  match inp with
  | .missingFile => ⟨1, Option.none⟩
  | .invalidJson => ⟨1, Option.none⟩
  | .parsed data =>
    match data.lookup "companies" with
    | Option.none => ⟨1, Option.none⟩
    | some (.list l) =>
      match asRecords l with
      | some records =>
        match build_index records with
        | Except.ok pair => ⟨0, some pair⟩
        | Except.error _ => ⟨1, Option.none⟩
      | Option.none => ⟨1, Option.none⟩
    | some (.str s) => if s = "" then ⟨0, some ([], [])⟩ else ⟨1, Option.none⟩
    | some (.dict kvs) =>
      if kvs.isEmpty then ⟨0, some ([], [])⟩ else ⟨1, Option.none⟩
    | some _ => ⟨1, Option.none⟩

/-- The `(key, position)` writes a key extractor `f` performs over a company
list starting at position `i`, in write order. -/
def keyedEntries (f : PyDict → Option String) : Nat → List PyDict → List (String × Nat)
  | _, [] => []
  | i, c :: cs =>
    (match f c with
     | some k => [(k, i)]
     | Option.none => []) ++ keyedEntries f (i + 1) cs

/-- The positions, from `i` on, at which `f` writes the key `k`. -/
def writersFrom (f : PyDict → Option String) : Nat → List PyDict → String → List Nat
  | _, [], _ => []
  | i, c :: cs, k =>
    (if f c = some k then [i] else []) ++ writersFrom f (i + 1) cs k

/-- The duplicate-slug entries `build_index` reports for a company list. -/
def dupSlugsOf (companies : List PyDict) : List (String × List Nat) :=
  dupEntries (keyPass slugKey 0 ⟨[], []⟩ companies).occ

/-- The duplicate-id entries `build_index` would report for a company list. -/
def dupIdsOf (companies : List PyDict) : List (String × List Nat) :=
  dupEntries (keyPass idKey 0 ⟨[], []⟩ companies).occ

/-- Specification of a successful `build_index` result (claim C4): `bySlug`
maps each record's retained trimmed slug to its zero-based position, `byId`
maps each non-null id's string form to its position, every `bySlug` key is
trimmed, non-empty and off the none/null denylist, every entry of either
mapping comes from a record, and records whose slug is absent, null, `""`,
`"None"` or `"null"` contribute no `bySlug` key. -/
def IndexOkSpec (companies : List PyDict) (bySlug byId : List (String × Nat)) : Prop :=
  (∀ (j : Fin companies.length) (k : String),
    slugKey (companies.get j) = some k → aLookup bySlug k = some j.val) ∧
  (∀ (j : Fin companies.length) (k : String),
    idKey (companies.get j) = some k → aLookup byId k = some j.val) ∧
  (∀ (j : Fin companies.length) (k : String), slugKey (companies.get j) = some k →
    k = stripStr (pyStr (pyGet (companies.get j) "slug"))) ∧
  (∀ p ∈ bySlug, stripStr p.1 = p.1 ∧ p.1 ≠ "" ∧
    pyLowerS p.1 ≠ "none" ∧ pyLowerS p.1 ≠ "null") ∧
  (∀ p ∈ bySlug, ∃ j : Fin companies.length,
    slugKey (companies.get j) = some p.1 ∧ p.2 = j.val) ∧
  (∀ p ∈ byId, ∃ j : Fin companies.length,
    idKey (companies.get j) = some p.1 ∧ p.2 = j.val) ∧
  (∀ c : PyDict,
    (c.lookup "slug" = Option.none ∨ c.lookup "slug" = some PyValue.none ∨
     c.lookup "slug" = some (.str "") ∨ c.lookup "slug" = some (.str "None") ∨
     c.lookup "slug" = some (.str "null")) → slugKey c = Option.none)

/-- Two canonical rows tied on the sorter's primary key: both have an empty
`batchIndex`, or both have a non-empty one with the same numeric value. -/
def primaryTie (a b : CanonRow) : Prop :=
  (a.batchIndex = "" ∧ b.batchIndex = "") ∨
  (a.batchIndex ≠ "" ∧ b.batchIndex ≠ "" ∧ numVal a = numVal b)

/-- Specification of the dataset sorter (claim C5): the output is a
permutation of the input; rows with a non-empty `batchIndex` precede rows
with an empty one; within the non-empty group the numeric `batchIndex`
values are non-increasing; within primary-key ties the lowered names are
non-decreasing; and rows tied on the whole sort key keep their original
relative order. -/
def SorterSpec (rs out : List CanonRow) : Prop :=
  out.Perm rs ∧
  (∀ i j : Fin out.length, (i : Nat) < j →
    (out.get i).batchIndex = "" → (out.get j).batchIndex = "") ∧
  (∀ i j : Fin out.length, (i : Nat) < j →
    (out.get i).batchIndex ≠ "" → (out.get j).batchIndex ≠ "" →
    numVal (out.get j) ≤ numVal (out.get i)) ∧
  (∀ i j : Fin out.length, (i : Nat) < j → primaryTie (out.get i) (out.get j) →
    pyLowerS (out.get i).name ≤ pyLowerS (out.get j).name) ∧
  (∀ a b : CanonRow, [a, b].Sublist rs → sort_key a = sort_key b →
    [a, b].Sublist out)

/-! ## Helper lemmas and theorems -/

theorem replaceDouble_length_le (l : List Char) :
    (replaceDouble l).length ≤ l.length := by
  induction l using replaceDouble.induct with
  | case1 rest ih => simpa [replaceDouble] using Nat.le_succ_of_le ih
  | case2 c rest h ih =>
    cases rest with
    | nil => simp [replaceDouble]
    | cons d rest => simpa [replaceDouble] using ih
  | case3 => simp [replaceDouble]

theorem replaceDouble_length_lt (l : List Char) (h : hasDouble l = true) :
    (replaceDouble l).length < l.length := by
  induction l using replaceDouble.induct with
  | case1 rest ih =>
    simpa [replaceDouble] using Nat.lt_succ_of_le (replaceDouble_length_le rest)
  | case2 c rest hne ih =>
    cases rest with
    | nil => simp [hasDouble] at h
    | cons d rest =>
      have h2 : hasDouble (d :: rest) = true := by
        cases c <;> cases d <;> simp_all [hasDouble]
      simpa [replaceDouble] using ih h2
  | case3 => simp [hasDouble] at h

theorem hasDouble_collapseFuel (n : Nat) :
    ∀ s : List Char, s.length ≤ n → hasDouble (collapseFuel n s) = false := by
  induction n with
  | zero =>
    intro s hs
    have : s = [] := List.length_eq_zero.mp (Nat.le_zero.mp hs)
    simp [this, collapseFuel, hasDouble]
  | succ n ih =>
    intro s hs
    by_cases h : hasDouble s = true
    · have := replaceDouble_length_lt s h
      have hlen : (replaceDouble s).length ≤ n := by omega
      simpa [collapseFuel, h] using ih _ hlen
    · simp at h
      simp [collapseFuel, h]

theorem hasDouble_collapseSpaces (s : List Char) :
    hasDouble (collapseSpaces s) = false :=
  hasDouble_collapseFuel s.length s (Nat.le_refl _)

example : parse_batch_index "W24" = "2024.25" := rfl
example : parse_batch_index "S24" = "2024.75" := rfl
example : parse_batch_index "IK12" = "" := rfl
example : parse_batch_index "" = "" := rfl
example : parse_batch_index "W-5" = "1995.25" := rfl
example : sanitize_text "a\n\tb   c" = "a b c" := rfl

theorem dropWhile_head_false {p : Char → Bool} (l : List Char)
    (h : ∀ hd, l.head? = some hd → p hd = false) : l.dropWhile p = l := by
  cases l with
  | nil => rfl
  | cons a rest => simp [List.dropWhile_cons, h a rfl]

theorem head?_dropWhile_false (p : Char → Bool) (l : List Char) :
    ∀ hd, (l.dropWhile p).head? = some hd → p hd = false := by
  induction l with
  | nil => intro hd h; simp at h
  | cons a rest ih =>
    intro hd h
    by_cases hp : p a
    · rw [List.dropWhile_cons, if_pos hp] at h
      exact ih hd h
    · rw [List.dropWhile_cons, if_neg hp] at h
      simp at h
      rw [← h]
      simpa using hp

theorem getLast?_of_suffix {l₁ l₂ : List Char} (h : l₁ <:+ l₂) (hne : l₁ ≠ []) :
    l₂.getLast? = l₁.getLast? := by
  obtain ⟨pre, rfl⟩ := h
  rw [List.getLast?_append]
  cases hl : l₁.getLast? with
  | none => exact absurd (by simpa using hl) hne
  | some x => rfl

theorem pyStripL_within (l : List Char) : pyStripL l <:+: l := by
  have h2 : ((l.dropWhile pyWs).reverse.dropWhile pyWs) <:+ (l.dropWhile pyWs).reverse :=
    List.dropWhile_suffix _
  have h3 : pyStripL l <+: (l.dropWhile pyWs) :=
    List.reverse_suffix.mp (by simpa [pyStripL] using h2)
  exact h3.isInfix.trans (List.dropWhile_suffix pyWs).isInfix

theorem head?_pyStripL (l : List Char) :
    ∀ hd, (pyStripL l).head? = some hd → pyWs hd = false := by
  intro hd hhd
  unfold pyStripL at hhd
  rw [List.head?_reverse] at hhd
  have hsuff : List.dropWhile pyWs (List.dropWhile pyWs l).reverse <:+
      (List.dropWhile pyWs l).reverse := List.dropWhile_suffix _
  have hne : List.dropWhile pyWs (List.dropWhile pyWs l).reverse ≠ [] := by
    intro h0
    rw [h0] at hhd
    simp at hhd
  have hlast := getLast?_of_suffix hsuff hne
  rw [← hlast, List.getLast?_reverse] at hhd
  exact head?_dropWhile_false pyWs l hd hhd

theorem getLast?_pyStripL (l : List Char) :
    ∀ hd, (pyStripL l).getLast? = some hd → pyWs hd = false := by
  intro hd hhd
  unfold pyStripL at hhd
  rw [List.getLast?_reverse] at hhd
  exact head?_dropWhile_false pyWs _ hd hhd

theorem pyStripL_eq_self {l : List Char}
    (h1 : ∀ hd, l.head? = some hd → pyWs hd = false)
    (h2 : ∀ hd, l.getLast? = some hd → pyWs hd = false) :
    pyStripL l = l := by
  unfold pyStripL
  rw [dropWhile_head_false l h1]
  rw [dropWhile_head_false l.reverse
    (by intro hd h; exact h2 hd (by rwa [List.head?_reverse] at h))]
  exact List.reverse_reverse l

theorem pyStripL_idem (l : List Char) : pyStripL (pyStripL l) = pyStripL l :=
  pyStripL_eq_self (head?_pyStripL l) (getLast?_pyStripL l)

theorem hasDouble_cons_of (c : Char) (rest : List Char) (h : hasDouble rest = true) :
    hasDouble (c :: rest) = true := by
  cases rest with
  | nil => simp [hasDouble] at h
  | cons d t =>
    by_cases hc : c = ' ' <;> by_cases hd : d = ' ' <;> simp_all [hasDouble]

theorem hasDouble_iff (l : List Char) : hasDouble l = true ↔ [' ', ' '] <:+: l := by
  constructor
  · induction l using hasDouble.induct with
    | case1 t => exact fun _ => ⟨[], t, rfl⟩
    | case2 c rest hne ih =>
      intro h
      have hr : hasDouble rest = true := by
        cases rest with
        | nil => simp [hasDouble] at h
        | cons d t =>
          by_cases hc : c = ' ' <;> by_cases hd : d = ' ' <;> simp_all [hasDouble]
      exact List.infix_cons (ih hr)
    | case3 => intro h; simp [hasDouble] at h
  · rintro ⟨pre, post, rfl⟩
    induction pre with
    | nil => rfl
    | cons c pre ih => exact hasDouble_cons_of c _ ih

theorem hasDouble_false_within {x y : List Char} (h : y <:+: x)
    (hx : hasDouble x = false) : hasDouble y = false := by
  by_contra hy
  have : hasDouble x = true :=
    (hasDouble_iff x).mpr (((hasDouble_iff y).mp (Bool.of_not_eq_false hy)).trans h)
  simp [this] at hx

theorem mem_replaceDouble {c : Char} : ∀ {l : List Char},
    c ∈ replaceDouble l → c = ' ' ∨ c ∈ l := by
  intro l
  induction l using replaceDouble.induct with
  | case1 rest ih =>
    intro hc
    simp only [replaceDouble, List.mem_cons] at hc
    rcases hc with h | h
    · exact Or.inl h
    · rcases ih h with h1 | h1
      · exact Or.inl h1
      · exact Or.inr (by simp [h1])
  | case2 c0 rest hne ih =>
    intro hc
    rw [show replaceDouble (c0 :: rest) = c0 :: replaceDouble rest by
      cases rest with
      | nil => simp [replaceDouble]
      | cons d t =>
        by_cases hc0 : c0 = ' ' <;> by_cases hd : d = ' ' <;> simp_all [replaceDouble]] at hc
    rcases List.mem_cons.mp hc with h | h
    · exact Or.inr (by simp [h])
    · rcases ih h with h1 | h1
      · exact Or.inl h1
      · exact Or.inr (by simp [h1])
  | case3 => intro hc; simp [replaceDouble] at hc

theorem mem_collapseFuel {c : Char} : ∀ (n : Nat) (l : List Char),
    c ∈ collapseFuel n l → c = ' ' ∨ c ∈ l := by
  intro n
  induction n with
  | zero => intro l hc; exact Or.inr hc
  | succ n ih =>
    intro l hc
    rw [collapseFuel] at hc
    by_cases h : hasDouble l = true
    · rw [if_pos h] at hc
      rcases ih _ hc with h1 | h1
      · exact Or.inl h1
      · exact mem_replaceDouble h1
    · rw [if_neg h] at hc
      exact Or.inr hc

theorem collapseFuel_eq_self {l : List Char} (n : Nat) (h : hasDouble l = false) :
    collapseFuel n l = l := by
  cases n with
  | zero => rfl
  | succ n => simp [collapseFuel, h]

theorem replNl_idem_char (c : Char) : replNl (replNl c) = replNl c := by
  by_cases h : (c = '\n' || c = '\r' || c = '\t') = true
  · have h1 : replNl c = ' ' := by unfold replNl; rw [if_pos h]
    rw [h1]
    rfl
  · have h1 : replNl c = c := by unfold replNl; rw [if_neg h]
    rw [h1, h1]

/-- Characters of a sanitized nonempty string are untouched by a second
newline/carriage-return/tab substitution. -/
theorem sanitize_chars_fixed (u : List Char) {c : Char}
    (hc : c ∈ pyStripL (collapseSpaces (u.map replNl))) : replNl c = c := by
  have h1 : c ∈ collapseSpaces (u.map replNl) :=
    (pyStripL_within _).sublist.mem hc
  rcases mem_collapseFuel _ _ h1 with h2 | h2
  · rw [h2]; rfl
  · rcases List.mem_map.mp h2 with ⟨d, _, rfl⟩
    exact replNl_idem_char d

theorem toList_asString (l : List Char) : (l.asString).toList = l := rfl

/-- Main lemma for idempotence: applying the sanitize pipeline to an
already-sanitized character list changes nothing. -/
theorem sanitize_pipeline_fixed (u : List Char) :
    let t := pyStripL (collapseSpaces (u.map replNl))
    pyStripL (collapseSpaces (t.map replNl)) = t := by
  intro t
  have hmap : t.map replNl = t :=
    (List.map_congr_left (fun c hc => sanitize_chars_fixed u hc)).trans t.map_id
  have hnd : hasDouble t = false :=
    hasDouble_false_within (pyStripL_within _) (hasDouble_collapseSpaces _)
  rw [hmap]
  rw [show collapseSpaces t = t from collapseFuel_eq_self t.length hnd]
  exact pyStripL_idem _

/-- C7: the Text Normalizer is idempotent — for every string `s`,
`sanitize_text (sanitize_text s) = sanitize_text s` — and
`sanitize_text "a\n\tb   c" = "a b c"`. -/
theorem text_normalizer_idempotent :
    (∀ s : String, sanitize_text (sanitize_text s) = sanitize_text s) ∧
    sanitize_text "a\n\tb   c" = "a b c" := by
  refine ⟨?_, rfl⟩
  intro s
  by_cases hs : s = ""
  · rw [hs]
    rfl
  · have e1 : sanitize_text s = (pyStripL (collapseSpaces (s.toList.map replNl))).asString := by
      unfold sanitize_text
      rw [if_neg hs]
    rw [e1]
    by_cases ht : (pyStripL (collapseSpaces (s.toList.map replNl))).asString = ""
    · rw [ht]
      rfl
    · unfold sanitize_text
      rw [if_neg ht, toList_asString]
      exact congrArg List.asString (sanitize_pipeline_fixed s.toList)

/-- C6: the Field Coercer returns `[]` for null input; for list input the
stringified elements with `None` elements dropped, in order; for dict input
the stringified keys (not values) with `None` keys dropped, in key order; and
`[]` for scalar input of any other type.  In particular the mapping
`{"AI": 1, "Dev Tools": 1}` coerces to `["AI", "Dev Tools"]`. -/
theorem field_coercer_spec :
    to_array PyValue.none = [] ∧
    (∀ xs : List PyValue,
      to_array (.list xs) = (xs.filter (fun v => !v.isNone)).map pyStr) ∧
    (∀ kvs : List (PyValue × PyValue),
      to_array (.dict kvs) = ((kvs.map Prod.fst).filter (fun k => !k.isNone)).map pyStr) ∧
    (∀ b : Bool, to_array (.bool b) = []) ∧
    (∀ n : Int, to_array (.int n) = []) ∧
    (∀ s : String, to_array (.str s) = []) ∧
    to_array (.dict [(.str "AI", .int 1), (.str "Dev Tools", .int 1)]) = ["AI", "Dev Tools"] ∧
    to_array (.list [.str "a", .none, .str "b"]) = ["a", "b"] :=
  ⟨rfl, fun _ => rfl, fun _ => rfl, fun _ => rfl, fun _ => rfl, fun _ => rfl, rfl, rfl⟩

/-- C3 counterexample: the claim demands the empty string whenever the suffix
after `W`/`S` is not a non-negative integer, but Python `int()` accepts a
sign, so the negative-suffix label `"W-5"` encodes to `"1995.25"`, not `""`. -/
theorem batch_encoder_negative_suffix_cex :
    parse_batch_index "W-5" = "1995.25" ∧ ("1995.25" : String) ≠ "" :=
  ⟨rfl, by decide⟩

/-- C3 (amended): for an ASCII label (Unicode digits and whitespace are
outside the embedding of `int()` and `upper()`), after stripping and
uppercasing, a label starting with `W` (resp. `S`) with at least 3
characters whose suffix parses under Python `int()` — which accepts a sign
and underscore digit grouping, so negative or grouped years are encoded
rather than rejected — returns, within the float-exact range
`|2000 + yy| ≤ 2^48`, the decimal string of `2000 + yy + 0.25`
(resp. `+ 0.75`); a label whose head is neither `W` nor `S`, or shorter
than 3 characters, or with a suffix `int()` rejects, returns `""`; and the
four examples of the claim hold, as does underscore grouping on
`"W2_4"`. -/
theorem batch_encoder_amended :
    (∀ (batch : String) (yy : Int), batch ≠ "" →
      (∀ c ∈ batch.toList, c.toNat ≤ 127) →
      (2000 + yy).natAbs ≤ 2 ^ 48 →
      ((pyStripL batch.toList).map Char.toUpper).head? = some 'W' →
      3 ≤ ((pyStripL batch.toList).map Char.toUpper).length →
      pyIntParseL (((pyStripL batch.toList).map Char.toUpper).drop 1) = some yy →
      parse_batch_index batch = formatQuarter (2000 + yy) 25) ∧
    (∀ (batch : String) (yy : Int), batch ≠ "" →
      (∀ c ∈ batch.toList, c.toNat ≤ 127) →
      (2000 + yy).natAbs ≤ 2 ^ 48 →
      ((pyStripL batch.toList).map Char.toUpper).head? = some 'S' →
      3 ≤ ((pyStripL batch.toList).map Char.toUpper).length →
      pyIntParseL (((pyStripL batch.toList).map Char.toUpper).drop 1) = some yy →
      parse_batch_index batch = formatQuarter (2000 + yy) 75) ∧
    (∀ batch : String, (∀ c ∈ batch.toList, c.toNat ≤ 127) →
      ((pyStripL batch.toList).map Char.toUpper).length < 3 →
      parse_batch_index batch = "") ∧
    (∀ (batch : String) (c : Char), (∀ c0 ∈ batch.toList, c0.toNat ≤ 127) →
      ((pyStripL batch.toList).map Char.toUpper).head? = some c →
      c ≠ 'W' → c ≠ 'S' → parse_batch_index batch = "") ∧
    (∀ batch : String, (∀ c ∈ batch.toList, c.toNat ≤ 127) →
      pyIntParseL (((pyStripL batch.toList).map Char.toUpper).drop 1) = Option.none →
      parse_batch_index batch = "") ∧
    parse_batch_index "W24" = "2024.25" ∧
    parse_batch_index "S24" = "2024.75" ∧
    parse_batch_index "IK12" = "" ∧
    parse_batch_index "" = "" ∧
    parse_batch_index "W2_4" = "2024.25" ∧
    parse_batch_index "W-5" = "1995.25" := by
  refine ⟨?_, ?_, ?_, ?_, ?_, rfl, rfl, rfl, rfl, rfl, rfl⟩
  · intro batch yy hne hascii hbound hW hlen hparse
    unfold parse_batch_index
    rw [if_neg hne, if_pos (And.intro hW hlen), hparse]
  · intro batch yy hne hascii hbound hS hlen hparse
    unfold parse_batch_index sBranch
    have hnW : ¬(((pyStripL batch.toList).map Char.toUpper).head? = some 'W' ∧
        3 ≤ ((pyStripL batch.toList).map Char.toUpper).length) := by
      rintro ⟨h, -⟩
      rw [hS] at h
      exact absurd (Option.some.inj h) (by decide)
    rw [if_neg hne, if_neg hnW, if_pos (And.intro hS hlen), hparse]
  · intro batch hascii hlen
    by_cases hne : batch = ""
    · rw [hne]
      rfl
    · unfold parse_batch_index sBranch
      have h3 : ¬(3 ≤ ((pyStripL batch.toList).map Char.toUpper).length) := by omega
      rw [if_neg hne, if_neg (by rintro ⟨-, h⟩; exact h3 h),
        if_neg (by rintro ⟨-, h⟩; exact h3 h)]
  · intro batch c hascii hc hW hS
    by_cases hne : batch = ""
    · rw [hne]
      rfl
    · unfold parse_batch_index sBranch
      rw [if_neg hne,
        if_neg (by rintro ⟨h, -⟩; rw [hc] at h; exact hW (Option.some.inj h)),
        if_neg (by rintro ⟨h, -⟩; rw [hc] at h; exact hS (Option.some.inj h))]
  · intro batch hascii hparse
    by_cases hne : batch = ""
    · rw [hne]
      rfl
    · unfold parse_batch_index sBranch
      rw [if_neg hne]
      by_cases hWc : ((pyStripL batch.toList).map Char.toUpper).head? = some 'W' ∧
          3 ≤ ((pyStripL batch.toList).map Char.toUpper).length
      · have hnS : ¬(((pyStripL batch.toList).map Char.toUpper).head? = some 'S' ∧
            3 ≤ ((pyStripL batch.toList).map Char.toUpper).length) := by
          rintro ⟨h, -⟩
          rw [hWc.1] at h
          exact absurd (Option.some.inj h) (by decide)
        rw [if_pos hWc, hparse, if_neg hnS]
      · rw [if_neg hWc]
        by_cases hSc : ((pyStripL batch.toList).map Char.toUpper).head? = some 'S' ∧
            3 ≤ ((pyStripL batch.toList).map Char.toUpper).length
        · rw [if_pos hSc, hparse]
        · rw [if_neg hSc]

/-- Witness for `batch_encoder_amended`: the `W` clause applied at `"W24"`. -/
theorem batch_encoder_amended_witness :
    parse_batch_index "W24" = formatQuarter (2000 + 24) 25 :=
  batch_encoder_amended.1 "W24" 24 (by decide) (by decide) (by decide) rfl
    (by decide) rfl

theorem exceptBind_ok {α β : Type} {x : Except String α} {f : α → Except String β}
    {r : β} (h : x.bind f = Except.ok r) : ∃ a, x = Except.ok a ∧ f a = Except.ok r := by
  cases x with
  | error e => simp [Except.bind] at h
  | ok a => exact ⟨a, rfl, h⟩

theorem process_company_eq (c : PyDict) :
    process_company c =
      (pySanitize (pyGetD c "name" (.str ""))).bind (fun nm =>
        (pySanitize (pyGetD c "oneLiner" (.str ""))).bind (fun ol =>
          Except.ok (procRecord c nm ol))) := rfl

theorem process_company_ok {c r : PyDict} (h : process_company c = Except.ok r) :
    ∃ nm ol, pySanitize (pyGetD c "name" (.str "")) = Except.ok nm ∧
      pySanitize (pyGetD c "oneLiner" (.str "")) = Except.ok ol ∧
      r = procRecord c nm ol := by
  rw [process_company_eq] at h
  obtain ⟨nm, h1, h2⟩ := exceptBind_ok h
  obtain ⟨ol, h3, h4⟩ := exceptBind_ok h2
  exact ⟨nm, ol, h1, h3, (Except.ok.inj h4).symm⟩

theorem pySanitize_ok {v : PyValue}
    (h : pyTruthy v = false ∨ ∃ s, v = PyValue.str s) :
    ∃ out, pySanitize v = Except.ok out := by
  rcases h with h | ⟨s, rfl⟩
  · exact ⟨"", by simp [pySanitize, h]⟩
  · by_cases ht : pyTruthy (PyValue.str s) = true
    · exact ⟨sanitize_text s, by simp [pySanitize, ht]⟩
    · exact ⟨"", by simp [pySanitize, Bool.of_not_eq_true ht]⟩

/-- C9 counterexample: the claim promises no error path for any combination
of wrong-typed fields, but a truthy non-string `name` (here the integer 5)
crashes `sanitize_text` at `s.replace` with an `AttributeError`. -/
theorem record_normalizer_crash_cex :
    process_company [("name", PyValue.int 5)] =
      Except.error "AttributeError: value has no attribute replace" := rfl

/-- C9 (amended): for every raw record whose `name` and `oneLiner` values are
falsy or strings (the cases where `sanitize_text` does not crash), the record
normalizer produces exactly one canonical record; in it every schema field is
present in order, and every field except `id` is a string or a sequence of
strings (in particular never null). -/
theorem record_normalizer_amended (c : PyDict)
    (hn : pyTruthy (pyGetD c "name" (.str "")) = false ∨
      ∃ s, pyGetD c "name" (.str "") = PyValue.str s)
    (ho : pyTruthy (pyGetD c "oneLiner" (.str "")) = false ∨
      ∃ s, pyGetD c "oneLiner" (.str "") = PyValue.str s) :
    ∃! r : PyDict, process_company c = Except.ok r ∧
      r.map Prod.fst = schemaKeys ∧
      ∀ p ∈ r, p.1 = "id" ∨
        ((∃ s, p.2 = PyValue.str s) ∨ (∃ l : List String, p.2 = .list (l.map PyValue.str))) := by
  obtain ⟨nm, hnm⟩ := pySanitize_ok hn
  obtain ⟨ol, hol⟩ := pySanitize_ok ho
  refine ⟨procRecord c nm ol, ⟨?_, rfl, ?_⟩, ?_⟩
  · rw [process_company_eq, hnm, hol]
    rfl
  · intro p hp
    simp only [procRecord, List.mem_cons, List.not_mem_nil, or_false] at hp
    rcases hp with rfl | rfl | rfl | rfl | rfl | rfl | rfl | rfl | rfl | rfl | rfl | rfl
    · exact Or.inl rfl
    · exact Or.inr (Or.inl ⟨_, rfl⟩)
    · exact Or.inr (Or.inl ⟨_, rfl⟩)
    · exact Or.inr (Or.inl ⟨_, rfl⟩)
    · exact Or.inr (Or.inl ⟨_, rfl⟩)
    · exact Or.inr (Or.inl ⟨_, rfl⟩)
    · exact Or.inr (Or.inl ⟨_, rfl⟩)
    · exact Or.inr (Or.inl ⟨_, rfl⟩)
    · exact Or.inr (Or.inl ⟨_, rfl⟩)
    · exact Or.inr (Or.inr ⟨_, rfl⟩)
    · exact Or.inr (Or.inr ⟨_, rfl⟩)
    · exact Or.inr (Or.inr ⟨_, rfl⟩)
  · rintro r' ⟨h', -, -⟩
    have h2 : process_company c = Except.ok (procRecord c nm ol) := by
      rw [process_company_eq, hnm, hol]
      rfl
    rw [h'] at h2
    exact Except.ok.inj h2

/-- Witness for `record_normalizer_amended`: the empty raw record, whose
`name` and `oneLiner` default to the falsy `""`. -/
theorem record_normalizer_amended_witness :
    ∃! r : PyDict, process_company [] = Except.ok r ∧
      r.map Prod.fst = schemaKeys ∧
      ∀ p ∈ r, p.1 = "id" ∨
        ((∃ s, p.2 = PyValue.str s) ∨ (∃ l : List String, p.2 = .list (l.map PyValue.str))) :=
  record_normalizer_amended [] (Or.inl rfl) (Or.inl rfl)

/-- C10: a present-but-null `slug`, `smallLogoUrl`, `batch` or `status` is
stringified to the literal `"None"` in the canonical record, while the
empty-string default applies exactly when the key is absent. -/
theorem null_scalar_stringification (c r : PyDict)
    (h : process_company c = Except.ok r) :
    (c.lookup "slug" = some PyValue.none → aLookup r "slug" = some (.str "None")) ∧
    (c.lookup "smallLogoUrl" = some PyValue.none →
      aLookup r "smallLogoUrl" = some (.str "None")) ∧
    (c.lookup "batch" = some PyValue.none → aLookup r "batch" = some (.str "None")) ∧
    (c.lookup "status" = some PyValue.none → aLookup r "status" = some (.str "None")) ∧
    (c.lookup "slug" = Option.none → aLookup r "slug" = some (.str "")) ∧
    (c.lookup "smallLogoUrl" = Option.none → aLookup r "smallLogoUrl" = some (.str "")) ∧
    (c.lookup "batch" = Option.none → aLookup r "batch" = some (.str "")) ∧
    (c.lookup "status" = Option.none → aLookup r "status" = some (.str "")) := by
  obtain ⟨nm, ol, -, -, rfl⟩ := process_company_ok h
  refine ⟨?_, ?_, ?_, ?_, ?_, ?_, ?_, ?_⟩ <;>
    intro hv <;> simp [procRecord, aLookup, pyGetD, hv, pyStr, pyRepr]

/-- Witness for `null_scalar_stringification`: a record with null `slug` and
`batch` and no `smallLogoUrl`/`status` keys. -/
theorem null_scalar_stringification_witness :
    aLookup (procRecord [("slug", PyValue.none), ("batch", PyValue.none)] "" "")
        "slug" = some (.str "None") ∧
    aLookup (procRecord [("slug", PyValue.none), ("batch", PyValue.none)] "" "")
        "batch" = some (.str "None") ∧
    aLookup (procRecord [("slug", PyValue.none), ("batch", PyValue.none)] "" "")
        "status" = some (.str "") := by
  have h := null_scalar_stringification
    [("slug", PyValue.none), ("batch", PyValue.none)]
    (procRecord [("slug", PyValue.none), ("batch", PyValue.none)] "" "") rfl
  exact ⟨h.1 rfl, h.2.2.1 rfl, h.2.2.2.2.2.2.2 rfl⟩

/-- C2 counterexample: for a mapping-shaped `industries` (and for a list
whose first element is null) the canonical `primaryIndustry` is `""`, not the
first element of the coerced sequence as the claim demands. -/
theorem primary_industry_cex :
    (process_company [("industries",
        PyValue.dict [(.str "AI", .int 1), (.str "Dev Tools", .int 1)])]).map
      (fun r => aLookup r "primaryIndustry") = Except.ok (some (PyValue.str "")) ∧
    to_array (PyValue.dict [(.str "AI", .int 1), (.str "Dev Tools", .int 1)]) =
      ["AI", "Dev Tools"] ∧
    (process_company [("industries", PyValue.list [.none, .str "AI"])]).map
      (fun r => aLookup r "primaryIndustry") = Except.ok (some (PyValue.str "")) ∧
    to_array (PyValue.list [.none, .str "AI"]) = ["AI"] ∧
    ("" : String) ≠ "AI" :=
  ⟨rfl, rfl, rfl, rfl, by decide⟩

/-- C2 (amended): `primaryIndustry` is computed from the raw `industries`
value, not the coerced sequence: it is `str()` of the first element when the
raw value is a non-empty list whose first element is not null, and `""` in
every other case (in particular for mapping-shaped industries and for lists
with a null first element).  When the raw value is a list with a non-null
first element this agrees with the claim, the head of the coerced sequence. -/
theorem primary_industry_amended (c r : PyDict)
    (h : process_company c = Except.ok r) :
    aLookup r "primaryIndustry" =
      some (.str (primaryOf (pyGetD c "industries" (.list [])))) ∧
    (∀ (w : PyValue) (ws : List PyValue), w.isNone = false →
      primaryOf (.list (w :: ws)) = pyStr w ∧
      (to_array (.list (w :: ws))).headD "" = pyStr w) ∧
    (∀ kvs, primaryOf (.dict kvs) = "") := by
  obtain ⟨nm, ol, -, -, rfl⟩ := process_company_ok h
  refine ⟨by simp [procRecord, aLookup], ?_, fun kvs => rfl⟩
  intro w ws hw
  constructor
  · simp [primaryOf, hw]
  · simp [to_array, hw]

/-- Witness for `primary_industry_amended`: the empty raw record. -/
theorem primary_industry_amended_witness :
    aLookup (procRecord [] "" "") "primaryIndustry" =
      some (.str (primaryOf (pyGetD [] "industries" (.list [])))) :=
  (primary_industry_amended [] (procRecord [] "" "") rfl).1

theorem dictSet_append : ∀ (d : List (String × Nat)) (k : String) (v : Nat),
    k ∉ d.map Prod.fst → dictSet d k v = d ++ [(k, v)]
  | [], _, _, _ => rfl
  | (k0, v0) :: rest, k, v, h => by
    have hne : k0 ≠ k := by
      intro he
      exact h (by simp [he])
    rw [dictSet, if_neg hne, dictSet_append rest k v (by intro hm; exact h (by simp [hm]))]
    rfl

theorem occAdd_append : ∀ (d : List (String × List Nat)) (k : String) (i : Nat),
    k ∉ d.map Prod.fst → occAdd d k i = d ++ [(k, [i])]
  | [], _, _, _ => rfl
  | (k0, l0) :: rest, k, i, h => by
    have hne : k0 ≠ k := by
      intro he
      exact h (by simp [he])
    rw [occAdd, if_neg hne, occAdd_append rest k i (by intro hm; exact h (by simp [hm]))]
    rfl

theorem aLookup_mem {β : Type} : ∀ {d : List (String × β)} {k : String} {v : β},
    (d.map Prod.fst).Nodup → (k, v) ∈ d → aLookup d k = some v := by
  intro d
  induction d with
  | nil => intro k v _ hm; simp at hm
  | cons p rest ih =>
    intro k v hnd hm
    obtain ⟨k0, v0⟩ := p
    rw [List.map_cons, List.nodup_cons] at hnd
    rcases List.mem_cons.mp hm with he | hm2
    · rw [aLookup, if_pos (congrArg Prod.fst he).symm]
      rw [show v0 = v from (congrArg Prod.snd he).symm]
    · have hne : k0 ≠ k := by
        intro he
        subst he
        exact hnd.1 (List.mem_map.mpr ⟨(k0, v), hm2, rfl⟩)
      rw [aLookup, if_neg hne]
      exact ih hnd.2 hm2

theorem aLookup_some_mem {β : Type} : ∀ {d : List (String × β)} {k : String} {v : β},
    aLookup d k = some v → (k, v) ∈ d := by
  intro d
  induction d with
  | nil => intro k v h; simp [aLookup] at h
  | cons p rest ih =>
    intro k v h
    obtain ⟨k0, v0⟩ := p
    rw [aLookup] at h
    by_cases he : k0 = k
    · rw [if_pos he] at h
      subst he
      exact List.mem_cons.mpr (Or.inl (by rw [Option.some.inj h]))
    · rw [if_neg he] at h
      exact List.mem_cons.mpr (Or.inr (ih h))

theorem aLookup_occAdd_self (d : List (String × List Nat)) (k : String) (i : Nat) :
    aLookup (occAdd d k i) k = some ((aLookup d k).getD [] ++ [i]) := by
  induction d with
  | nil => simp [occAdd, aLookup]
  | cons p rest ih =>
    obtain ⟨k0, l0⟩ := p
    by_cases he : k0 = k
    · simp [occAdd, aLookup, he]
    · simp only [occAdd, if_neg he, aLookup]
      exact ih

theorem aLookup_occAdd_other (d : List (String × List Nat)) {k q : String} (i : Nat)
    (h : q ≠ k) : aLookup (occAdd d k i) q = aLookup d q := by
  have hkq : ¬k = q := fun h2 => h h2.symm
  induction d with
  | nil =>
    simp only [occAdd, aLookup]
    rw [if_neg hkq]
  | cons p rest ih =>
    obtain ⟨k0, l0⟩ := p
    by_cases he : k0 = k
    · subst he
      simp [occAdd, aLookup, hkq]
    · simp only [occAdd, if_neg he, aLookup]
      by_cases hq : k0 = q
      · rw [if_pos hq, if_pos hq]
      · rw [if_neg hq, if_neg hq]
        exact ih

theorem keyedEntries_keys (f : PyDict → Option String) : ∀ (i : Nat) (cs : List PyDict),
    (keyedEntries f i cs).map Prod.fst = cs.filterMap f
  | _, [] => rfl
  | i, c :: cs => by
    rw [keyedEntries, List.filterMap_cons, List.map_append, keyedEntries_keys f (i + 1) cs]
    cases hf : f c <;> rfl

theorem keyedEntries_of_get (f : PyDict → Option String) :
    ∀ (cs : List PyDict) (i j : Nat) (hj : j < cs.length) (k : String),
    f (cs.get ⟨j, hj⟩) = some k → (k, i + j) ∈ keyedEntries f i cs := by
  intro cs
  induction cs with
  | nil => intro i j hj; simp at hj
  | cons c cs ih =>
    intro i j hj k hk
    cases j with
    | zero =>
      rw [keyedEntries]
      simp only [List.get] at hk
      rw [hk]
      simp
    | succ m =>
      have hm : m < cs.length := by simpa using hj
      have := ih (i + 1) m hm k (by simpa using hk)
      rw [keyedEntries]
      refine List.mem_append_right _ ?_
      have harith : i + (m + 1) = (i + 1) + m := by omega
      rw [harith]
      exact this

theorem keyedEntries_mem (f : PyDict → Option String) :
    ∀ (cs : List PyDict) (i : Nat) (p : String × Nat), p ∈ keyedEntries f i cs →
    ∃ j, ∃ hj : j < cs.length, f (cs.get ⟨j, hj⟩) = some p.1 ∧ p.2 = i + j := by
  intro cs
  induction cs with
  | nil => intro i p hp; simp [keyedEntries] at hp
  | cons c cs ih =>
    intro i p hp
    rw [keyedEntries] at hp
    rcases List.mem_append.mp hp with h1 | h2
    · cases hf : f c with
      | none => rw [hf] at h1; simp at h1
      | some k =>
        rw [hf] at h1
        simp only [List.mem_singleton] at h1
        subst h1
        exact ⟨0, by simp, by simpa using hf, by simp⟩
    · obtain ⟨j, hj, hfk, hpv⟩ := ih (i + 1) p h2
      exact ⟨j + 1, by simpa using hj, by simpa using hfk, by omega⟩

theorem writersFrom_mem (f : PyDict → Option String) :
    ∀ (cs : List PyDict) (i : Nat) (k : String) (j : Nat),
    j ∈ writersFrom f i cs k ↔
    ∃ m, ∃ hm : m < cs.length, f (cs.get ⟨m, hm⟩) = some k ∧ j = i + m := by
  intro cs
  induction cs with
  | nil =>
    intro i k j
    simp [writersFrom]
  | cons c cs ih =>
    intro i k j
    rw [writersFrom, List.mem_append]
    constructor
    · rintro (h1 | h2)
      · by_cases hf : f c = some k
        · rw [if_pos hf] at h1
          simp only [List.mem_singleton] at h1
          exact ⟨0, by simp, by simpa using hf, by omega⟩
        · rw [if_neg hf] at h1
          simp at h1
      · obtain ⟨m, hm, hfk, hj⟩ := (ih (i + 1) k j).mp h2
        exact ⟨m + 1, by simpa using hm, by simpa using hfk, by omega⟩
    · rintro ⟨m, hm, hfk, rfl⟩
      cases m with
      | zero =>
        refine Or.inl ?_
        simp only [List.get] at hfk
        rw [if_pos hfk]
        simp
      | succ n =>
        refine Or.inr ?_
        refine (ih (i + 1) k _).mpr ⟨n, by simpa using hm, by simpa using hfk, by omega⟩

theorem keyPass_map_eq (f : PyDict → Option String) :
    ∀ (cs : List PyDict) (i : Nat) (st : KeyTrack),
    (keyPass f i st cs).map =
      (keyedEntries f i cs).foldl (fun d p => dictSet d p.1 p.2) st.map := by
  intro cs
  induction cs with
  | nil => intro i st; rfl
  | cons c cs ih =>
    intro i st
    rw [keyPass, keyedEntries]
    cases hf : f c with
    | none => rw [ih (i + 1) st]; rfl
    | some k => rw [ih (i + 1) ⟨dictSet st.map k i, occAdd st.occ k i⟩]; rfl

theorem keyPass_occ_eq (f : PyDict → Option String) :
    ∀ (cs : List PyDict) (i : Nat) (st : KeyTrack),
    (keyPass f i st cs).occ =
      (keyedEntries f i cs).foldl (fun d p => occAdd d p.1 p.2) st.occ := by
  intro cs
  induction cs with
  | nil => intro i st; rfl
  | cons c cs ih =>
    intro i st
    rw [keyPass, keyedEntries]
    cases hf : f c with
    | none => rw [ih (i + 1) st]; rfl
    | some k => rw [ih (i + 1) ⟨dictSet st.map k i, occAdd st.occ k i⟩]; rfl

theorem foldl_dictSet_eq : ∀ (entries : List (String × Nat)) (d : List (String × Nat)),
    (∀ p ∈ entries, p.1 ∉ d.map Prod.fst) → (entries.map Prod.fst).Nodup →
    entries.foldl (fun d p => dictSet d p.1 p.2) d = d ++ entries
  | [], d, _, _ => by simp
  | (k, v) :: rest, d, hdisj, hnd => by
    rw [List.foldl_cons]
    rw [show dictSet d k v = d ++ [(k, v)] from
      dictSet_append d k v (hdisj (k, v) (List.mem_cons_self _ _))]
    rw [List.map_cons, List.nodup_cons] at hnd
    rw [foldl_dictSet_eq rest (d ++ [(k, v)]) ?_ hnd.2]
    · simp
    · intro p hp
      rw [List.map_append, List.mem_append]
      rintro (h1 | h2)
      · exact hdisj p (List.mem_cons_of_mem _ hp) h1
      · simp only [List.map_cons, List.map_nil, List.mem_singleton] at h2
        exact hnd.1 (h2 ▸ List.mem_map.mpr ⟨p, hp, rfl⟩)

theorem foldl_occAdd_eq : ∀ (entries : List (String × Nat)) (o : List (String × List Nat)),
    (∀ p ∈ entries, p.1 ∉ o.map Prod.fst) → (entries.map Prod.fst).Nodup →
    entries.foldl (fun d p => occAdd d p.1 p.2) o =
      o ++ entries.map (fun p => (p.1, [p.2]))
  | [], o, _, _ => by simp
  | (k, v) :: rest, o, hdisj, hnd => by
    rw [List.foldl_cons]
    rw [show occAdd o k v = o ++ [(k, [v])] from
      occAdd_append o k v (hdisj (k, v) (List.mem_cons_self _ _))]
    rw [List.map_cons, List.nodup_cons] at hnd
    rw [foldl_occAdd_eq rest (o ++ [(k, [v])]) ?_ hnd.2]
    · simp
    · intro p hp
      rw [List.map_append, List.mem_append]
      rintro (h1 | h2)
      · exact hdisj p (List.mem_cons_of_mem _ hp) h1
      · simp only [List.map_cons, List.map_nil, List.mem_singleton] at h2
        exact hnd.1 (h2 ▸ List.mem_map.mpr ⟨p, hp, rfl⟩)

theorem occAdd_keys_sub (d : List (String × List Nat)) (k : String) (i : Nat) :
    ∀ q ∈ (occAdd d k i).map Prod.fst, q ∈ d.map Prod.fst ∨ q = k := by
  induction d with
  | nil => intro q hq; simp [occAdd] at hq; exact Or.inr hq
  | cons p rest ih =>
    obtain ⟨k0, l0⟩ := p
    intro q hq
    by_cases he : k0 = k
    · simp only [occAdd, if_pos he, List.map_cons, List.mem_cons] at hq
      refine Or.inl ?_
      simp only [List.map_cons, List.mem_cons]
      exact hq
    · simp only [occAdd, if_neg he, List.map_cons, List.mem_cons] at hq
      rcases hq with rfl | hq2
      · exact Or.inl (by simp)
      · rcases ih q hq2 with h1 | h1
        · exact Or.inl (by simp [h1])
        · exact Or.inr h1

theorem occAdd_keys_nodup {d : List (String × List Nat)} (k : String) (i : Nat)
    (h : (d.map Prod.fst).Nodup) : ((occAdd d k i).map Prod.fst).Nodup := by
  induction d with
  | nil => simp [occAdd]
  | cons p rest ih =>
    obtain ⟨k0, l0⟩ := p
    rw [List.map_cons, List.nodup_cons] at h
    by_cases he : k0 = k
    · simp only [occAdd, if_pos he, List.map_cons, List.nodup_cons]
      exact ⟨h.1, h.2⟩
    · simp only [occAdd, if_neg he, List.map_cons, List.nodup_cons]
      refine ⟨?_, ih h.2⟩
      intro hmem
      rcases occAdd_keys_sub rest k i k0 hmem with h1 | h1
      · exact h.1 h1
      · exact he h1

theorem keyPass_occ_keys_nodup (f : PyDict → Option String) :
    ∀ (cs : List PyDict) (i : Nat) (st : KeyTrack),
    (st.occ.map Prod.fst).Nodup → ((keyPass f i st cs).occ.map Prod.fst).Nodup := by
  intro cs
  induction cs with
  | nil => intro i st h; exact h
  | cons c cs ih =>
    intro i st h
    rw [keyPass]
    cases hf : f c with
    | none => exact ih (i + 1) st h
    | some k => exact ih (i + 1) _ (occAdd_keys_nodup k i h)

theorem stripStr_idem (s : String) : stripStr (stripStr s) = stripStr s := by
  unfold stripStr
  rw [toList_asString]
  exact congrArg List.asString (pyStripL_idem s.toList)

theorem slugKey_eq_strip {c : PyDict} {k : String} (h : slugKey c = some k) :
    k = stripStr (pyStr (pyGet c "slug")) := by
  unfold slugKey at h
  dsimp only [] at h
  split at h
  · exact absurd h (by simp)
  · split at h
    · exact (Option.some.inj h).symm
    · exact absurd h (by simp)

theorem slugKey_props {c : PyDict} {k : String} (h : slugKey c = some k) :
    stripStr k = k ∧ k ≠ "" ∧ pyLowerS k ≠ "none" ∧ pyLowerS k ≠ "null" := by
  have hk := slugKey_eq_strip h
  unfold slugKey at h
  dsimp only [] at h
  split at h
  · exact absurd h (by simp)
  · split at h
    · rename_i hcond
      obtain ⟨h1, h2, h3⟩ := hcond
      have hsk : stripStr (pyStr (pyGet c "slug")) = k := Option.some.inj h
      rw [← hsk]
      exact ⟨stripStr_idem _, h1, h2, h3⟩
    · exact absurd h (by simp)

theorem slugKey_none_cases (c : PyDict)
    (h : c.lookup "slug" = Option.none ∨ c.lookup "slug" = some PyValue.none ∨
      c.lookup "slug" = some (.str "") ∨ c.lookup "slug" = some (.str "None") ∨
      c.lookup "slug" = some (.str "null")) : slugKey c = Option.none := by
  rcases h with h | h | h | h | h <;> (unfold slugKey pyGet; rw [h]; rfl)

/-- C4: when the retained slugs and the stringified non-null ids of a company
list are pairwise distinct, `build_index` succeeds; `bySlug` maps each
record's retained trimmed slug to its zero-based position and `byId` maps
each non-null id's string form to its position; every `bySlug` key is
trimmed, non-empty and not case-insensitively `none`/`null`; and records
with slug `"None"`, `"null"`, `""`, null or absent contribute no `bySlug`
key. -/
theorem index_builder_success (companies : List PyDict)
    (hs : (companies.filterMap slugKey).Nodup)
    (hi : (companies.filterMap idKey).Nodup) :
    build_index companies =
      Except.ok (keyedEntries slugKey 0 companies, keyedEntries idKey 0 companies) ∧
    IndexOkSpec companies
      (keyedEntries slugKey 0 companies) (keyedEntries idKey 0 companies) := by
  have hns : ((keyedEntries slugKey 0 companies).map Prod.fst).Nodup := by
    rw [keyedEntries_keys]
    exact hs
  have hni : ((keyedEntries idKey 0 companies).map Prod.fst).Nodup := by
    rw [keyedEntries_keys]
    exact hi
  have hmap_s : (keyPass slugKey 0 ⟨[], []⟩ companies).map =
      keyedEntries slugKey 0 companies := by
    rw [keyPass_map_eq, foldl_dictSet_eq _ [] (by simp) hns]
    simp
  have hmap_i : (keyPass idKey 0 ⟨[], []⟩ companies).map =
      keyedEntries idKey 0 companies := by
    rw [keyPass_map_eq, foldl_dictSet_eq _ [] (by simp) hni]
    simp
  have hocc_s : (keyPass slugKey 0 ⟨[], []⟩ companies).occ =
      (keyedEntries slugKey 0 companies).map (fun p => (p.1, [p.2])) := by
    rw [keyPass_occ_eq, foldl_occAdd_eq _ [] (by simp) hns]
    simp
  have hocc_i : (keyPass idKey 0 ⟨[], []⟩ companies).occ =
      (keyedEntries idKey 0 companies).map (fun p => (p.1, [p.2])) := by
    rw [keyPass_occ_eq, foldl_occAdd_eq _ [] (by simp) hni]
    simp
  have hdup_s : dupEntries (keyPass slugKey 0 ⟨[], []⟩ companies).occ = [] := by
    rw [hocc_s]
    unfold dupEntries
    rw [List.filter_eq_nil_iff]
    rintro p hp
    obtain ⟨q, -, rfl⟩ := List.mem_map.mp hp
    simp
  have hdup_i : dupEntries (keyPass idKey 0 ⟨[], []⟩ companies).occ = [] := by
    rw [hocc_i]
    unfold dupEntries
    rw [List.filter_eq_nil_iff]
    rintro p hp
    obtain ⟨q, -, rfl⟩ := List.mem_map.mp hp
    simp
  constructor
  · unfold build_index
    dsimp only []
    rw [hdup_s, hdup_i, hmap_s, hmap_i]
    rfl
  · refine ⟨?_, ?_, ?_, ?_, ?_, ?_, slugKey_none_cases⟩
    · intro j k hjk
      have hmem := keyedEntries_of_get slugKey companies 0 j.val j.isLt k hjk
      exact aLookup_mem hns (by simpa using hmem)
    · intro j k hjk
      have hmem := keyedEntries_of_get idKey companies 0 j.val j.isLt k hjk
      exact aLookup_mem hni (by simpa using hmem)
    · intro j k h
      exact slugKey_eq_strip h
    · intro p hp
      obtain ⟨j, hj, hf, hv⟩ := keyedEntries_mem slugKey companies 0 p hp
      exact slugKey_props hf
    · intro p hp
      obtain ⟨j, hj, hf, hv⟩ := keyedEntries_mem slugKey companies 0 p hp
      exact ⟨⟨j, hj⟩, hf, by simpa using hv⟩
    · intro p hp
      obtain ⟨j, hj, hf, hv⟩ := keyedEntries_mem idKey companies 0 p hp
      exact ⟨⟨j, hj⟩, hf, by simpa using hv⟩

/-- Witness for `index_builder_success`: two records with distinct slugs and
ids index to their positions. -/
theorem index_builder_success_witness :
    build_index [[("slug", PyValue.str "a"), ("id", PyValue.int 1)],
                 [("slug", PyValue.str "b"), ("id", PyValue.int 2)]] =
      Except.ok
        (keyedEntries slugKey 0
          [[("slug", PyValue.str "a"), ("id", PyValue.int 1)],
           [("slug", PyValue.str "b"), ("id", PyValue.int 2)]],
         keyedEntries idKey 0
          [[("slug", PyValue.str "a"), ("id", PyValue.int 1)],
           [("slug", PyValue.str "b"), ("id", PyValue.int 2)]]) ∧
    IndexOkSpec [[("slug", PyValue.str "a"), ("id", PyValue.int 1)],
                 [("slug", PyValue.str "b"), ("id", PyValue.int 2)]]
      (keyedEntries slugKey 0
        [[("slug", PyValue.str "a"), ("id", PyValue.int 1)],
         [("slug", PyValue.str "b"), ("id", PyValue.int 2)]])
      (keyedEntries idKey 0
        [[("slug", PyValue.str "a"), ("id", PyValue.int 1)],
         [("slug", PyValue.str "b"), ("id", PyValue.int 2)]]) :=
  index_builder_success _ (by decide) (by decide)

theorem keyPass_occ_lookup (f : PyDict → Option String) :
    ∀ (cs : List PyDict) (i : Nat) (st : KeyTrack) (k : String),
    aLookup (keyPass f i st cs).occ k =
      match aLookup st.occ k with
      | some l => some (l ++ writersFrom f i cs k)
      | Option.none =>
        if writersFrom f i cs k = [] then Option.none
        else some (writersFrom f i cs k) := by
  intro cs
  induction cs with
  | nil =>
    intro i st k
    rw [keyPass, writersFrom]
    cases h : aLookup st.occ k <;> simp [h]
  | cons c cs ih =>
    intro i st k
    rw [keyPass, writersFrom]
    cases hf : f c with
    | none =>
      dsimp only []
      rw [if_neg (by simp : ¬(Option.none : Option String) = some k)]
      rw [List.nil_append]
      exact ih (i + 1) st k
    | some q =>
      dsimp only []
      by_cases hk : q = k
      · subst hk
        rw [if_pos rfl]
        rw [ih (i + 1) ⟨dictSet st.map q i, occAdd st.occ q i⟩ q]
        rw [aLookup_occAdd_self]
        cases h0 : aLookup st.occ q with
        | none => simp [h0]
        | some l => simp [h0, List.append_assoc]
      · rw [if_neg (fun he => hk (Option.some.inj he))]
        rw [List.nil_append]
        rw [ih (i + 1) ⟨dictSet st.map q i, occAdd st.occ q i⟩ k]
        rw [aLookup_occAdd_other st.occ i (fun he => hk he.symm)]

theorem two_mem_le_length {l : List Nat} {a b : Nat} (ha : a ∈ l) (hb : b ∈ l)
    (hne : a ≠ b) : 2 ≤ l.length := by
  cases l with
  | nil => simp at ha
  | cons x rest =>
    cases rest with
    | nil =>
      simp at ha hb
      exact absurd (ha.trans hb.symm) hne
    | cons y t =>
      simp only [List.length_cons]
      omega

/-- C1 counterexample: with both a duplicated slug and a duplicated id,
`build_index` raises the slug report alone — the raised message is exactly
the slug-duplicates report, and the id-duplicate line that the id report
would contain (in the code's own format) occurs nowhere in it, although the
id `1` was indeed written by positions 0 and 1. -/
theorem index_builder_both_dup_cex :
    build_index [[("slug", PyValue.str "a"), ("id", PyValue.int 1)],
                 [("slug", PyValue.str "a"), ("id", PyValue.int 1)]] =
      Except.error ("Duplicate slugs found:\n  " ++ pyQuote ++ "a" ++ pyQuote ++
        " at indices: [0, 1]") ∧
    dupIdsOf [[("slug", PyValue.str "a"), ("id", PyValue.int 1)],
              [("slug", PyValue.str "a"), ("id", PyValue.int 1)]] = [("1", [0, 1])] ∧
    ¬ (("  " ++ pyQuote ++ "1" ++ pyQuote ++ " at indices: [0, 1]").toList <:+:
        ("Duplicate slugs found:\n  " ++ pyQuote ++ "a" ++ pyQuote ++
          " at indices: [0, 1]").toList) :=
  ⟨rfl, rfl, by decide⟩

/-- C1 (amended): whenever at least one slug key is written by more than one
position (in particular when ids are duplicated as well), `build_index` fails
with the slug-duplicates report alone; that report names every duplicated
slug with all of its writing positions; id duplicates are reported only when
no slug is duplicated. -/
theorem index_builder_slug_report (companies : List PyDict)
    (hdup : dupSlugsOf companies ≠ []) :
    build_index companies =
      Except.error (dupReport "Duplicate slugs found:" (dupSlugsOf companies)) ∧
    (∀ j1 j2 : Fin companies.length, j1.val ≠ j2.val → ∀ k,
      slugKey (companies.get j1) = some k → slugKey (companies.get j2) = some k →
      ∃ l, (k, l) ∈ dupSlugsOf companies ∧ j1.val ∈ l ∧ j2.val ∈ l) ∧
    (∀ p ∈ dupSlugsOf companies, 2 ≤ p.2.length ∧
      ∀ j ∈ p.2, ∃ hj : j < companies.length,
        slugKey (companies.get ⟨j, hj⟩) = some p.1) := by
  have hoccL : ∀ k, aLookup (keyPass slugKey 0 ⟨[], []⟩ companies).occ k =
      if writersFrom slugKey 0 companies k = [] then Option.none
      else some (writersFrom slugKey 0 companies k) := by
    intro k
    have := keyPass_occ_lookup slugKey companies 0 ⟨[], []⟩ k
    simpa [aLookup] using this
  refine ⟨?_, ?_, ?_⟩
  · unfold build_index
    dsimp only []
    have hfalse : (dupEntries (keyPass slugKey 0 ⟨[], []⟩ companies).occ).isEmpty = false := by
      cases he : (dupEntries (keyPass slugKey 0 ⟨[], []⟩ companies).occ).isEmpty
      · rfl
      · exact absurd (List.isEmpty_iff.mp he) hdup
    rw [hfalse]
    rfl
  · intro j1 j2 hne k h1 h2
    have hw1 : j1.val ∈ writersFrom slugKey 0 companies k :=
      (writersFrom_mem slugKey companies 0 k j1.val).mpr
        ⟨j1.val, j1.isLt, h1, by omega⟩
    have hw2 : j2.val ∈ writersFrom slugKey 0 companies k :=
      (writersFrom_mem slugKey companies 0 k j2.val).mpr
        ⟨j2.val, j2.isLt, h2, by omega⟩
    have hwne : writersFrom slugKey 0 companies k ≠ [] := by
      intro h0
      rw [h0] at hw1
      simp at hw1
    have hlk : aLookup (keyPass slugKey 0 ⟨[], []⟩ companies).occ k =
        some (writersFrom slugKey 0 companies k) := by
      rw [hoccL k, if_neg hwne]
    refine ⟨writersFrom slugKey 0 companies k, ?_, hw1, hw2⟩
    refine List.mem_filter.mpr ⟨aLookup_some_mem hlk, ?_⟩
    simp only [decide_eq_true_eq]
    have := two_mem_le_length hw1 hw2 hne
    omega
  · intro p hp
    have hmem := List.mem_filter.mp hp
    have hlen : 1 < p.2.length := by simpa using hmem.2
    have hnd : ((keyPass slugKey 0 ⟨[], []⟩ companies).occ.map Prod.fst).Nodup :=
      keyPass_occ_keys_nodup slugKey companies 0 ⟨[], []⟩ (by simp)
    have hlk : aLookup (keyPass slugKey 0 ⟨[], []⟩ companies).occ p.1 = some p.2 :=
      aLookup_mem hnd (by
        obtain ⟨k, l⟩ := p
        exact hmem.1)
    have hw : p.2 = writersFrom slugKey 0 companies p.1 := by
      rw [hoccL p.1] at hlk
      by_cases hwe : writersFrom slugKey 0 companies p.1 = []
      · rw [if_pos hwe] at hlk
        simp at hlk
      · rw [if_neg hwe] at hlk
        exact (Option.some.inj hlk).symm
    refine ⟨by omega, ?_⟩
    intro j hj
    rw [hw] at hj
    obtain ⟨m, hm, hfk, hjm⟩ := (writersFrom_mem slugKey companies 0 p.1 j).mp hj
    exact ⟨by omega, by
      have : j = m := by omega
      subst this
      exact hfk⟩

/-- Witness for `index_builder_slug_report`: two records sharing the slug
`"x"`. -/
theorem index_builder_slug_report_witness :
    build_index [[("slug", PyValue.str "x")], [("slug", PyValue.str "x")]] =
      Except.error (dupReport "Duplicate slugs found:"
        (dupSlugsOf [[("slug", PyValue.str "x")], [("slug", PyValue.str "x")]])) :=
  (index_builder_slug_report _ (by decide)).1

/-- C8 counterexample: a dataset whose `companies` value is present but not a
sequence (here the integer 5) is none of the four claimed error cases, yet the
command exits nonzero (uncaught `TypeError` while iterating) and writes
nothing, where the claim demands exit 0 after a write. -/
theorem index_command_crash_cex :
    mainRun (.parsed [("companies", PyValue.int 5)]) = ⟨1, Option.none⟩ ∧
    (List.lookup "companies" [("companies", PyValue.int 5)]).isSome = true :=
  ⟨rfl, rfl⟩

/-- C8 (amended): the index command exits nonzero and writes nothing on a
missing input file, malformed JSON, a missing top-level `companies` key, and
a duplicate-key validation failure; it exits 0 after writing the index when
the `companies` value is a sequence of records that passes validation; an
empty-string or empty-mapping `companies` value yields zero loop iterations,
so an empty index is written and the exit code is 0; every other malformed
`companies` shape (a non-empty string or mapping, an int, or a sequence
containing a non-record element) exits nonzero without writing, via an
uncaught exception.  In every case an output is written only with exit
code 0. -/
theorem index_command_amended :
    mainRun .missingFile = ⟨1, Option.none⟩ ∧
    mainRun .invalidJson = ⟨1, Option.none⟩ ∧
    (∀ data : PyDict, data.lookup "companies" = Option.none →
      mainRun (.parsed data) = ⟨1, Option.none⟩) ∧
    (∀ (data : PyDict) (l : List PyValue) (records : List PyDict) (e : String),
      data.lookup "companies" = some (.list l) → asRecords l = some records →
      build_index records = Except.error e →
      mainRun (.parsed data) = ⟨1, Option.none⟩) ∧
    (∀ (data : PyDict) (l : List PyValue) (records : List PyDict)
        (pair : List (String × Nat) × List (String × Nat)),
      data.lookup "companies" = some (.list l) → asRecords l = some records →
      build_index records = Except.ok pair →
      mainRun (.parsed data) = ⟨0, some pair⟩) ∧
    (∀ (data : PyDict) (l : List PyValue),
      data.lookup "companies" = some (.list l) → asRecords l = Option.none →
      mainRun (.parsed data) = ⟨1, Option.none⟩) ∧
    (∀ data : PyDict, data.lookup "companies" = some (.str "") →
      mainRun (.parsed data) = ⟨0, some ([], [])⟩) ∧
    (∀ (data : PyDict) (s : String), data.lookup "companies" = some (.str s) →
      s ≠ "" → mainRun (.parsed data) = ⟨1, Option.none⟩) ∧
    (∀ data : PyDict, data.lookup "companies" = some (.dict []) →
      mainRun (.parsed data) = ⟨0, some ([], [])⟩) ∧
    (∀ (data : PyDict) (kvs : List (PyValue × PyValue)),
      data.lookup "companies" = some (.dict kvs) → kvs ≠ [] →
      mainRun (.parsed data) = ⟨1, Option.none⟩) ∧
    (∀ (data : PyDict) (n : Int), data.lookup "companies" = some (.int n) →
      mainRun (.parsed data) = ⟨1, Option.none⟩) ∧
    (∀ inp : IndexInput, (mainRun inp).written ≠ Option.none →
      (mainRun inp).exitCode = 0) := by
  refine ⟨rfl, rfl, ?_, ?_, ?_, ?_, ?_, ?_, ?_, ?_, ?_, ?_⟩
  · intro data h
    simp [mainRun, h]
  · intro data l records e h1 h2 h3
    simp [mainRun, h1, h2, h3]
  · intro data l records pair h1 h2 h3
    simp [mainRun, h1, h2, h3]
  · intro data l h1 h2
    simp [mainRun, h1, h2]
  · intro data h
    simp [mainRun, h]
  · intro data s h hs
    simp [mainRun, h, hs]
  · intro data h
    simp [mainRun, h]
  · intro data kvs h hk
    simp [mainRun, h, hk]
  · intro data n h
    simp [mainRun, h]
  · intro inp
    cases inp with
    | missingFile => intro h; simp [mainRun] at h
    | invalidJson => intro h; simp [mainRun] at h
    | parsed data =>
      intro h
      cases hl : List.lookup "companies" data with
      | none => simp [mainRun, hl] at h
      | some v =>
        cases v with
        | list l =>
          cases hm : asRecords l with
          | none => simp [mainRun, hl, hm] at h
          | some records =>
            cases hb : build_index records with
            | ok pair => simp [mainRun, hl, hm, hb]
            | error e => simp [mainRun, hl, hm, hb] at h
        | none => simp [mainRun, hl] at h
        | bool b => simp [mainRun, hl] at h
        | int n => simp [mainRun, hl] at h
        | str s =>
          by_cases hs : s = ""
          · simp [mainRun, hl, hs]
          · simp [mainRun, hl, hs] at h
        | dict kvs =>
          by_cases hk : kvs.isEmpty
          · simp [mainRun, hl, hk]
          · simp [mainRun, hl, hk] at h

/-- Witness for `index_command_amended`: an empty dataset indexes to the
empty index with exit code 0. -/
theorem index_command_amended_witness :
    mainRun (.parsed [("companies", PyValue.list [])]) = ⟨0, some ([], [])⟩ :=
  index_command_amended.2.2.2.2.1 [("companies", PyValue.list [])] [] [] ([], [])
    rfl rfl rfl

theorem rowLE_trans : ∀ a b c : CanonRow, rowLE a b → rowLE b c → rowLE a c := by
  intro a b c hab hbc
  exact decide_eq_true (le_trans (of_decide_eq_true hab) (of_decide_eq_true hbc))

theorem rowLE_total : ∀ a b : CanonRow, rowLE a b || rowLE b a := by
  intro a b
  rcases le_total (sort_key a) (sort_key b) with h | h
  · simp [rowLE, h]
  · simp [rowLE, h]

theorem sortKey_le_blank {a b : CanonRow} (h : sort_key a ≤ sort_key b)
    (hb : a.batchIndex = "") : b.batchIndex = "" := by
  rw [sort_key, sort_key] at h
  rcases (Prod.Lex.le_iff _ _).mp h with hlt | ⟨heq, -⟩
  · rw [decide_eq_true hb] at hlt
    rcases Bool.lt_iff.mp hlt with ⟨h1, -⟩
    exact absurd h1 (by simp)
  · rw [decide_eq_true hb] at heq
    exact of_decide_eq_true heq.symm

theorem sortKey_le_neg {a b : CanonRow} (h : sort_key a ≤ sort_key b)
    (h1 : decide (a.batchIndex = "") = decide (b.batchIndex = "")) :
    negBatchVal a.batchIndex ≤ negBatchVal b.batchIndex := by
  rw [sort_key, sort_key] at h
  rcases (Prod.Lex.le_iff _ _).mp h with hlt | ⟨-, hrest⟩
  · rw [h1] at hlt
    exact absurd hlt (lt_irrefl _)
  · rcases (Prod.Lex.le_iff _ _).mp hrest with hlt2 | ⟨heq2, -⟩
    · exact le_of_lt hlt2
    · exact le_of_eq heq2

theorem sortKey_le_name {a b : CanonRow} (h : sort_key a ≤ sort_key b)
    (h1 : decide (a.batchIndex = "") = decide (b.batchIndex = ""))
    (h2 : negBatchVal a.batchIndex = negBatchVal b.batchIndex) :
    pyLowerS a.name ≤ pyLowerS b.name := by
  rw [sort_key, sort_key] at h
  rcases (Prod.Lex.le_iff _ _).mp h with hlt | ⟨-, hrest⟩
  · rw [h1] at hlt
    exact absurd hlt (lt_irrefl _)
  · rcases (Prod.Lex.le_iff _ _).mp hrest with hlt2 | ⟨-, hname⟩
    · rw [h2] at hlt2
      exact absurd hlt2 (lt_irrefl _)
    · exact hname

theorem negBatchVal_eq {r : CanonRow} (hne : r.batchIndex ≠ "")
    (hp : (parseDecimal r.batchIndex).isSome) :
    negBatchVal r.batchIndex = (((-(numVal r) : ℚ)) : WithTop ℚ) := by
  unfold negBatchVal numVal
  rw [if_neg hne]
  obtain ⟨q, hq⟩ := Option.isSome_iff_exists.mp hp
  rw [hq]
  rfl

/-- C5: the Dataset Sorter returns a permutation of its input in which rows
with a known batch precede rows with an empty `batchIndex`, numeric batch
values are non-increasing within the known group, names are non-decreasing
case-insensitively within primary-key ties, and rows tied on both keys keep
their original relative order (stability). -/
theorem dataset_sorter_spec (rs : List CanonRow)
    (hparse : ∀ r ∈ rs, r.batchIndex = "" ∨ (parseDecimal r.batchIndex).isSome) :
    SorterSpec rs (sortCompanies rs) := by
  have hperm : (sortCompanies rs).Perm rs := List.mergeSort_perm rs rowLE
  have hpw : (sortCompanies rs).Pairwise (fun a b => rowLE a b = true) := by
    have := List.sorted_mergeSort rowLE_trans rowLE_total rs
    exact this
  have hget : ∀ i j : Fin (sortCompanies rs).length, (i : Nat) < j →
      sort_key ((sortCompanies rs).get i) ≤ sort_key ((sortCompanies rs).get j) := by
    intro i j hij
    exact of_decide_eq_true (List.pairwise_iff_get.mp hpw i j (by exact hij))
  have hmem : ∀ i : Fin (sortCompanies rs).length, (sortCompanies rs).get i ∈ rs :=
    fun i => hperm.mem_iff.mp (List.get_mem _ i.val i.isLt)
  refine ⟨hperm, ?_, ?_, ?_, ?_⟩
  · intro i j hij hbi
    exact sortKey_le_blank (hget i j hij) hbi
  · intro i j hij hbi hbj
    have hpi : (parseDecimal ((sortCompanies rs).get i).batchIndex).isSome := by
      rcases hparse _ (hmem i) with h | h
      · exact absurd h hbi
      · exact h
    have hpj : (parseDecimal ((sortCompanies rs).get j).batchIndex).isSome := by
      rcases hparse _ (hmem j) with h | h
      · exact absurd h hbj
      · exact h
    have hdec : decide (((sortCompanies rs).get i).batchIndex = "") =
        decide (((sortCompanies rs).get j).batchIndex = "") := by
      rw [decide_eq_false hbi, decide_eq_false hbj]
    have hneg := sortKey_le_neg (hget i j hij) hdec
    rw [negBatchVal_eq hbi hpi, negBatchVal_eq hbj hpj] at hneg
    have := (WithTop.coe_le_coe).mp hneg
    linarith
  · intro i j hij htie
    rcases htie with ⟨hbi, hbj⟩ | ⟨hbi, hbj, hv⟩
    · have hdec : decide (((sortCompanies rs).get i).batchIndex = "") =
          decide (((sortCompanies rs).get j).batchIndex = "") := by
        rw [decide_eq_true hbi, decide_eq_true hbj]
      have hneg : negBatchVal ((sortCompanies rs).get i).batchIndex =
          negBatchVal ((sortCompanies rs).get j).batchIndex := by
        unfold negBatchVal
        rw [if_pos hbi, if_pos hbj]
      exact sortKey_le_name (hget i j hij) hdec hneg
    · have hpi : (parseDecimal ((sortCompanies rs).get i).batchIndex).isSome := by
        rcases hparse _ (hmem i) with h | h
        · exact absurd h hbi
        · exact h
      have hpj : (parseDecimal ((sortCompanies rs).get j).batchIndex).isSome := by
        rcases hparse _ (hmem j) with h | h
        · exact absurd h hbj
        · exact h
      have hdec : decide (((sortCompanies rs).get i).batchIndex = "") =
          decide (((sortCompanies rs).get j).batchIndex = "") := by
        rw [decide_eq_false hbi, decide_eq_false hbj]
      have hneg : negBatchVal ((sortCompanies rs).get i).batchIndex =
          negBatchVal ((sortCompanies rs).get j).batchIndex := by
        rw [negBatchVal_eq hbi hpi, negBatchVal_eq hbj hpj, hv]
      exact sortKey_le_name (hget i j hij) hdec hneg
  · intro a b hsub hkey
    have hab : rowLE a b := decide_eq_true (le_of_eq hkey)
    exact List.pair_sublist_mergeSort rowLE_trans rowLE_total hab hsub

/-- Witness for `dataset_sorter_spec`: two rows with empty `batchIndex`. -/
theorem dataset_sorter_spec_witness :
    SorterSpec
      [⟨PyValue.none, "", "b", "", "", "", "", "", "", [], [], []⟩,
       ⟨PyValue.none, "", "a", "", "", "", "", "", "", [], [], []⟩]
      (sortCompanies
        [⟨PyValue.none, "", "b", "", "", "", "", "", "", [], [], []⟩,
         ⟨PyValue.none, "", "a", "", "", "", "", "", "", [], [], []⟩]) := by
  apply dataset_sorter_spec
  intro r hr
  rcases List.mem_cons.mp hr with rfl | hr2
  · exact Or.inl rfl
  · rcases List.mem_cons.mp hr2 with rfl | hr3
    · exact Or.inl rfl
    · simp at hr3
